import Mathlib

/-!
Verification of the batch image-conversion core of `avif-image-optimizer`.

The repository ships the test suite of its parallel batch engine
(`test/parallel-processor.test.js`) together with the surrounding CLI and
programmatic API (`src/cli.js`, `src/index.js`), while the engine module
`src/parallel-processor.js` itself is not among the provided sources.  The
engine (`processInParallel`, `getOptimalConcurrency`, the concurrency
clamp) is therefore modelled from the specification: a bounded-concurrency
scheduler given as a small-step transition system whose nondeterminism
ranges over all real-time completion orders.  The programmatic
`batchConvert` helper, whose source is present, is embedded directly.
-/

namespace AvifOptimizer

/-- Work items paired with their original input index, counting up from
`k`.  `withIdx 0 items` is the ordered dispatch queue of the scheduler. -/
def withIdx {α : Type} (k : Nat) : List α → List (Nat × α)
  | [] => []
  | a :: as => (k, a) :: withIdx (k + 1) as

/-- Modelled from the spec: the failure record appended to `errors` and
passed to `onError` — `{ item, index, error, completed, total }`
(spec sections 3 and 4.2, step 4c). -/
structure ErrRecord (α ε : Type) where
  file : α
  index : Nat
  error : ε
  completed : Nat
  total : Nat
  deriving DecidableEq

/-- Modelled from the spec: one callback invocation (`onProgress` for a
success, `onError` for a failure), recorded in real-time completion order
(spec section 4.2, step 4).  `percentage` is the exact, unrounded value
`completed/total*100`, modelled as a rational. -/
inductive CallbackEvent (α β ε : Type) where
  | progress (file : α) (index : Nat) (completed : Nat) (total : Nat)
      (result : β) (percentage : ℚ)
  | failure (file : α) (index : Nat) (error : ε) (completed : Nat) (total : Nat)
  deriving DecidableEq

/-- Original input index an event reports. -/
def CallbackEvent.evIndex {α β ε : Type} : CallbackEvent α β ε → Nat
  | .progress _ i _ _ _ _ => i
  | .failure _ i _ _ _ => i

/-- Value of the shared `completed` counter an event reports. -/
def CallbackEvent.evCompleted {α β ε : Type} : CallbackEvent α β ε → Nat
  | .progress _ _ c _ _ _ => c
  | .failure _ _ _ c _ => c

/-- Whether the event is an `onProgress` invocation. -/
def CallbackEvent.isProgress {α β ε : Type} : CallbackEvent α β ε → Bool
  | .progress _ _ _ _ _ _ => true
  | .failure _ _ _ _ _ => false

/-- Modelled from the spec: the scheduler state of `processInParallel`
(spec section 4.2) — the not-yet-dispatched queue, the in-flight set, the
shared completed counter, the index-addressed success slots, the
completion-ordered error records, the callback trace, and the number of
invocations of the caller-supplied operation so far. -/
structure SchedState (α β ε : Type) where
  pending : List (Nat × α)
  inFlight : List (Nat × α)
  completedCount : Nat
  results : List (Option β)
  errors : List (ErrRecord α ε)
  events : List (CallbackEvent α β ε)
  opCalls : Nat
  deriving DecidableEq

/-- Modelled from the spec: settling one in-flight item `p` whose
operation outcome is `op p.1 p.2` (spec section 4.2, steps 4 and 5): the
completed counter is incremented, a success value is recorded at the
item's original index, a failure is appended to the completion-ordered
error list, and the matching callback is invoked.  Synchronous throws and
asynchronous rejections are a single failure channel (`Except.error`),
as the spec requires them to be treated identically. -/
def settleAt {α β ε : Type} (op : Nat → α → Except ε β) (N : Nat) (p : Nat × α)
    (remaining : List (Nat × α)) (s : SchedState α β ε) : SchedState α β ε :=
  match op p.1 p.2 with
  | Except.ok v =>
      { s with inFlight := remaining,
               completedCount := s.completedCount + 1,
               results := s.results.set p.1 (some v),
               events := s.events ++
                 [CallbackEvent.progress p.2 p.1 (s.completedCount + 1) N v
                   (((s.completedCount + 1 : Nat) : ℚ) / (N : ℚ) * 100)] }
  | Except.error e =>
      { s with inFlight := remaining,
               completedCount := s.completedCount + 1,
               errors := s.errors ++ [⟨p.2, p.1, e, s.completedCount + 1, N⟩],
               events := s.events ++
                 [CallbackEvent.failure p.2 p.1 e (s.completedCount + 1) N] }

/-- Modelled from the spec: the scheduler state at batch start — every
item pending in input order, nothing in flight, empty containers
(spec section 3, BatchResult lifecycle). -/
def initState (β ε : Type) {α : Type} (items : List α) : SchedState α β ε :=
  { pending := withIdx 0 items, inFlight := [], completedCount := 0,
    results := List.replicate items.length none, errors := [], events := [],
    opCalls := 0 }

/-- Moving the head of the pending queue into a free slot: the item goes
in flight and one invocation of `op` is counted. -/
def dispatchOne {α β ε : Type} (p : Nat × α) (rest : List (Nat × α))
    (s : SchedState α β ε) : SchedState α β ε :=
  { s with pending := rest, inFlight := s.inFlight ++ [p],
           opCalls := s.opCalls + 1 }

/-- Modelled from the spec: one scheduler step (spec section 4.2, step 3).
A `dispatch` moves the head of the pending queue into a free slot —
enabled only while fewer than `eff` invocations are outstanding — and
counts one invocation of `op`.  A `settle` picks ANY in-flight item
(the position in `inFlight` is unconstrained, so the transition system
ranges over every real-time completion order) and records its outcome. -/
inductive Step {α β ε : Type} (op : Nat → α → Except ε β) (N eff : Nat) :
    SchedState α β ε → SchedState α β ε → Prop where
  | dispatch (s : SchedState α β ε) (p : Nat × α) (rest : List (Nat × α))
      (hp : s.pending = p :: rest) (hcap : s.inFlight.length < eff) :
      Step op N eff s (dispatchOne p rest s)
  | settle (s : SchedState α β ε) (l₁ l₂ : List (Nat × α)) (p : Nat × α)
      (hf : s.inFlight = l₁ ++ p :: l₂) :
      Step op N eff s (settleAt op N p (l₁ ++ l₂) s)

/-- States the scheduler can reach on input `items` with operation `op`
and effective concurrency `eff`. -/
inductive Reachable {α β ε : Type} (items : List α) (op : Nat → α → Except ε β)
    (eff : Nat) : SchedState α β ε → Prop where
  | init : Reachable items op eff (initState β ε items)
  | step {s t : SchedState α β ε} : Reachable items op eff s →
      Step op items.length eff s t → Reachable items op eff t

/-- A finished batch run: a reachable state in which every item has been
dispatched and every dispatched item has settled. -/
def CompleteRun {α β ε : Type} (items : List α) (op : Nat → α → Except ε β)
    (eff : Nat) (s : SchedState α β ε) : Prop :=
  Reachable items op eff s ∧ s.pending = [] ∧ s.inFlight = []

/-- Modelled from the spec: the aggregate returned by `processInParallel`
(spec section 3). -/
structure BatchResult (α β ε : Type) where
  results : List β
  errors : List (ErrRecord α ε)
  total : Nat
  successful : Nat
  failed : Nat
  deriving DecidableEq

/-- Modelled from the spec: final assembly of the batch result once all
items are settled (spec section 4.2, step 6): `results` keeps the
index-addressed success values with the empty slots dropped (failures
excluded, not padded), `errors` stays in completion order, and the
counts are `total = N`, `successful = results.length`,
`failed = errors.length`. -/
def assemble {α β ε : Type} (N : Nat) (s : SchedState α β ε) : BatchResult α β ε :=
  { results := s.results.filterMap id,
    errors := s.errors,
    total := N,
    successful := (s.results.filterMap id).length,
    failed := s.errors.length }

/-- Sequential reference schedule: dispatch one item into the single free
slot and settle it at once, repeatedly.  Used to exhibit concrete complete
runs (it is one of the schedules `Step` admits whenever `eff ≥ 1`). -/
def seqGo {α β ε : Type} (op : Nat → α → Except ε β) (N : Nat) :
    List (Nat × α) → SchedState α β ε → SchedState α β ε
  | [], s => s
  | p :: rest, s => seqGo op N rest (settleAt op N p [] (dispatchOne p rest s))

/-- The final state of the sequential reference schedule on `items`. -/
def seqSched {α β ε : Type} (items : List α) (op : Nat → α → Except ε β) :
    SchedState α β ε :=
  seqGo op items.length (withIdx 0 items) (initState β ε items)

/-- Success value of an operation outcome, `none` for a failure. -/
def outcomeVal {β ε : Type} : Except ε β → Option β
  | Except.ok v => some v
  | Except.error _ => none

/-- The callback event produced when item `p` settles as the `c`-th
completion out of `N`. -/
def outcomeEvent {α β ε : Type} (op : Nat → α → Except ε β) (N : Nat)
    (p : Nat × α) (c : Nat) : CallbackEvent α β ε :=
  match op p.1 p.2 with
  | Except.ok v => CallbackEvent.progress p.2 p.1 c N v ((c : ℚ) / (N : ℚ) * 100)
  | Except.error e => CallbackEvent.failure p.2 p.1 e c N

/-- The error record produced when item `p` settles as the `c`-th
completion out of `N`, if its outcome is a failure. -/
def outcomeErr {α β ε : Type} (op : Nat → α → Except ε β) (N : Nat)
    (p : Nat × α) (c : Nat) : Option (ErrRecord α ε) :=
  match op p.1 p.2 with
  | Except.ok _ => none
  | Except.error e => some ⟨p.2, p.1, e, c, N⟩

/-- The error record an event corresponds to, if it is an `onError` call. -/
def eventErr {α β ε : Type} : CallbackEvent α β ε → Option (ErrRecord α ε)
  | CallbackEvent.progress _ _ _ _ _ _ => none
  | CallbackEvent.failure a i e c t => some ⟨a, i, e, c, t⟩

theorem evIndex_outcomeEvent {α β ε : Type} (op : Nat → α → Except ε β)
    (N : Nat) (p : Nat × α) (c : Nat) :
    (outcomeEvent op N p c).evIndex = p.1 := by
  cases h : op p.1 p.2 <;> simp [outcomeEvent, h, CallbackEvent.evIndex]

theorem evCompleted_outcomeEvent {α β ε : Type} (op : Nat → α → Except ε β)
    (N : Nat) (p : Nat × α) (c : Nat) :
    (outcomeEvent op N p c).evCompleted = c := by
  cases h : op p.1 p.2 <;> simp [outcomeEvent, h, CallbackEvent.evCompleted]

theorem eventErr_outcomeEvent {α β ε : Type} (op : Nat → α → Except ε β)
    (N : Nat) (p : Nat × α) (c : Nat) :
    eventErr (outcomeEvent op N p c) = outcomeErr op N p c := by
  cases h : op p.1 p.2 <;> simp [outcomeEvent, outcomeErr, eventErr, h]

theorem settleAt_pending {α β ε : Type} (op : Nat → α → Except ε β) (N : Nat)
    (p : Nat × α) (r : List (Nat × α)) (s : SchedState α β ε) :
    (settleAt op N p r s).pending = s.pending := by
  cases h : op p.1 p.2 <;> simp [settleAt, h]

theorem settleAt_inFlight {α β ε : Type} (op : Nat → α → Except ε β) (N : Nat)
    (p : Nat × α) (r : List (Nat × α)) (s : SchedState α β ε) :
    (settleAt op N p r s).inFlight = r := by
  cases h : op p.1 p.2 <;> simp [settleAt, h]

theorem settleAt_completedCount {α β ε : Type} (op : Nat → α → Except ε β) (N : Nat)
    (p : Nat × α) (r : List (Nat × α)) (s : SchedState α β ε) :
    (settleAt op N p r s).completedCount = s.completedCount + 1 := by
  cases h : op p.1 p.2 <;> simp [settleAt, h]

theorem settleAt_opCalls {α β ε : Type} (op : Nat → α → Except ε β) (N : Nat)
    (p : Nat × α) (r : List (Nat × α)) (s : SchedState α β ε) :
    (settleAt op N p r s).opCalls = s.opCalls := by
  cases h : op p.1 p.2 <;> simp [settleAt, h]

theorem settleAt_events {α β ε : Type} (op : Nat → α → Except ε β) (N : Nat)
    (p : Nat × α) (r : List (Nat × α)) (s : SchedState α β ε) :
    (settleAt op N p r s).events =
      s.events ++ [outcomeEvent op N p (s.completedCount + 1)] := by
  cases h : op p.1 p.2 <;> simp [settleAt, outcomeEvent, h]

theorem settleAt_errors {α β ε : Type} (op : Nat → α → Except ε β) (N : Nat)
    (p : Nat × α) (r : List (Nat × α)) (s : SchedState α β ε) :
    (settleAt op N p r s).errors =
      s.errors ++ (outcomeErr op N p (s.completedCount + 1)).toList := by
  cases h : op p.1 p.2 <;> simp [settleAt, outcomeErr, h]

theorem settleAt_results {α β ε : Type} (op : Nat → α → Except ε β) (N : Nat)
    (p : Nat × α) (r : List (Nat × α)) (s : SchedState α β ε) :
    (settleAt op N p r s).results =
      match op p.1 p.2 with
      | Except.ok v => s.results.set p.1 (some v)
      | Except.error _ => s.results := by
  cases h : op p.1 p.2 <;> simp [settleAt, h]

theorem length_withIdx {α : Type} (k : Nat) (l : List α) :
    (withIdx k l).length = l.length := by
  induction l generalizing k with
  | nil => rfl
  | cons a as ih => simp [withIdx, ih]

theorem mem_withIdx {α : Type} {l : List α} {p : Nat × α} :
    ∀ {k : Nat}, p ∈ withIdx k l ↔ ∃ j, p.1 = k + j ∧ l.get? j = some p.2 := by
  induction l with
  | nil => intro k; simp [withIdx]
  | cons a as ih =>
    intro k
    simp only [withIdx, List.mem_cons, ih]
    constructor
    · rintro (rfl | ⟨j, hj, hget⟩)
      · exact ⟨0, by simp, by simp⟩
      · exact ⟨j + 1, by omega, by simpa using hget⟩
    · rintro ⟨j, hj, hget⟩
      cases j with
      | zero =>
        left
        cases p with
        | mk i a2 =>
          simp only [List.get?_cons_zero, Option.some.injEq] at hget
          simp at hj
          simp [hj, hget]
      | succ j =>
        right
        exact ⟨j, by omega, by simpa using hget⟩

theorem map_fst_withIdx {α : Type} (l : List α) :
    ∀ (k : Nat), (withIdx k l).map Prod.fst = List.range' k l.length := by
  induction l with
  | nil => intro k; rfl
  | cons a as ih => intro k; simp [withIdx, ih, List.range'_succ]

theorem seqGo_complete {α β ε : Type} (items : List α) (op : Nat → α → Except ε β)
    (eff : Nat) (heff : 1 ≤ eff) :
    ∀ (rest : List (Nat × α)) (s : SchedState α β ε),
      Reachable items op eff s → s.pending = rest → s.inFlight = [] →
      Reachable items op eff (seqGo op items.length rest s) ∧
      (seqGo op items.length rest s).pending = [] ∧
      (seqGo op items.length rest s).inFlight = [] := by
  intro rest
  induction rest with
  | nil =>
    intro s hr hp hf
    exact ⟨hr, by simpa [seqGo] using hp, by simpa [seqGo] using hf⟩
  | cons p rest ih =>
    intro s hr hp hf
    have hcap : s.inFlight.length < eff := by simp [hf]; omega
    have hr1 : Reachable items op eff (dispatchOne p rest s) :=
      Reachable.step hr (Step.dispatch s p rest hp hcap)
    have hflight : (dispatchOne p rest s).inFlight = [] ++ p :: [] := by
      simp [dispatchOne, hf]
    have hr2 : Reachable items op eff
        (settleAt op items.length p ([] ++ []) (dispatchOne p rest s)) :=
      Reachable.step hr1 (Step.settle _ [] [] p hflight)
    have hr2' : Reachable items op eff
        (settleAt op items.length p [] (dispatchOne p rest s)) := by
      simpa using hr2
    have := ih _ hr2' (by rw [settleAt_pending]; rfl) (by rw [settleAt_inFlight])
    simpa [seqGo] using this

/-- Every original index, counted with multiplicity, over the three
places an item can be at: not yet dispatched, in flight, or settled
(recorded in the callback trace). -/
def idxMultiset {α β ε : Type} (s : SchedState α β ε) : Multiset Nat :=
  (s.pending.map Prod.fst : Multiset Nat) +
    (s.inFlight.map Prod.fst : Multiset Nat) +
    (s.events.map CallbackEvent.evIndex : Multiset Nat)

/-- The inductive invariant of the scheduler: queue entries carry their
original item, every index lives in exactly one place, the callback trace
describes the operation's outcome at its index, the `completed` values in
the trace are `1..completedCount` in call order, the success slots hold
exactly the settled successes at their original indices, the error list
is the failure part of the trace in completion order, and the number of
`op` invocations equals in-flight plus settled items. -/
structure Inv {α β ε : Type} (items : List α) (op : Nat → α → Except ε β)
    (s : SchedState α β ε) : Prop where
  pending_items : ∀ p ∈ s.pending, items.get? p.1 = some p.2
  inflight_items : ∀ p ∈ s.inFlight, items.get? p.1 = some p.2
  idx_nodup : (idxMultiset s).Nodup
  cover : ∀ j, j < items.length →
      j ∈ s.pending.map Prod.fst ∨ j ∈ s.inFlight.map Prod.fst ∨
      j ∈ s.events.map CallbackEvent.evIndex
  events_spec : ∀ ev ∈ s.events, ∃ a, items.get? ev.evIndex = some a ∧
      ev = outcomeEvent op items.length (ev.evIndex, a) ev.evCompleted
  events_completed : s.events.map CallbackEvent.evCompleted =
      List.range' 1 s.completedCount
  results_len : s.results.length = items.length
  results_spec : ∀ j a, items.get? j = some a →
      s.results.get? j =
        some (if j ∈ s.events.map CallbackEvent.evIndex then outcomeVal (op j a)
              else none)
  errors_spec : s.errors = s.events.filterMap eventErr
  opCalls_spec : s.opCalls = s.inFlight.length + s.events.length

theorem get?_replicate_of_lt {γ : Type} (x : γ) :
    ∀ {n j : Nat}, j < n → (List.replicate n x).get? j = some x := by
  intro n
  induction n with
  | zero => intro j h; omega
  | succ n ih =>
    intro j h
    cases j with
    | zero => rfl
    | succ j => simpa [List.replicate_succ] using ih (by omega)

theorem inv_init {α β ε : Type} (items : List α) (op : Nat → α → Except ε β) :
    Inv items op (initState β ε items) := by
  constructor
  · intro p hp
    rcases mem_withIdx.mp hp with ⟨j, hj, hget⟩
    simpa [hj] using hget
  · intro p hp
    simp [initState] at hp
  · simp only [idxMultiset, initState, map_fst_withIdx, List.map_nil]
    simpa using List.nodup_range' 0 items.length
  · intro j hj
    left
    simp only [initState, map_fst_withIdx]
    exact List.mem_range'_1.mpr ⟨Nat.zero_le j, by omega⟩
  · intro ev hev
    simp [initState] at hev
  · simp [initState]
  · simp [initState]
  · intro j a hja
    have hj : j < items.length := by
      rcases List.get?_eq_some.mp hja with ⟨h, _⟩
      exact h
    simp only [initState]
    rw [get?_replicate_of_lt _ hj]
    simp
  · simp [initState]
  · simp [initState]

theorem idxMultiset_dispatchOne {α β ε : Type} (s : SchedState α β ε)
    (p : Nat × α) (rest : List (Nat × α)) (hp : s.pending = p :: rest) :
    idxMultiset (dispatchOne p rest s) = idxMultiset s := by
  simp only [idxMultiset, dispatchOne, hp, List.map_append, List.map_cons,
    List.map_nil, ← Multiset.coe_add, ← Multiset.cons_coe, Multiset.coe_singleton]
  simp only [← Multiset.singleton_add]
  abel

theorem idxMultiset_settleAt {α β ε : Type} (op : Nat → α → Except ε β)
    (N : Nat) (s : SchedState α β ε) (p : Nat × α) (l₁ l₂ : List (Nat × α))
    (hf : s.inFlight = l₁ ++ p :: l₂) :
    idxMultiset (settleAt op N p (l₁ ++ l₂) s) = idxMultiset s := by
  simp only [idxMultiset, settleAt_pending, settleAt_inFlight, settleAt_events, hf,
    List.map_append, List.map_cons, List.map_nil, evIndex_outcomeEvent,
    ← Multiset.coe_add, ← Multiset.cons_coe, Multiset.coe_singleton]
  simp only [← Multiset.singleton_add]
  abel

theorem inv_step {α β ε : Type} {items : List α} {op : Nat → α → Except ε β}
    {eff : Nat} {s t : SchedState α β ε} (hinv : Inv items op s)
    (hstep : Step op items.length eff s t) : Inv items op t := by
  cases hstep with
  | dispatch p rest hp hcap =>
    have hpmem : p ∈ s.pending := by rw [hp]; exact List.mem_cons_self p rest
    have hpitem : items.get? p.1 = some p.2 := hinv.pending_items p hpmem
    constructor
    · intro q hq
      refine hinv.pending_items q ?_
      rw [hp]
      exact List.mem_cons_of_mem _ (by simpa [dispatchOne] using hq)
    · intro q hq
      simp only [dispatchOne, List.mem_append, List.mem_singleton] at hq
      rcases hq with hq | rfl
      · exact hinv.inflight_items q hq
      · exact hpitem
    · rw [idxMultiset_dispatchOne s p rest hp]
      exact hinv.idx_nodup
    · intro j hj
      rcases hinv.cover j hj with h | h | h
      · rw [hp] at h
        simp only [List.map_cons, List.mem_cons] at h
        rcases h with rfl | h
        · right; left; simp [dispatchOne]
        · left; simpa [dispatchOne] using h
      · right; left; simp only [dispatchOne, List.map_append, List.mem_append]
        exact Or.inl h
      · right; right; simpa [dispatchOne] using h
    · intro ev hev
      exact hinv.events_spec ev (by simpa [dispatchOne] using hev)
    · simpa [dispatchOne] using hinv.events_completed
    · simpa [dispatchOne] using hinv.results_len
    · intro j a hja
      simpa [dispatchOne] using hinv.results_spec j a hja
    · simpa [dispatchOne] using hinv.errors_spec
    · have := hinv.opCalls_spec
      simp only [dispatchOne, List.length_append, List.length_singleton]
      omega
  | settle l₁ l₂ p hf =>
    have hpmem : p ∈ s.inFlight := by
      rw [hf]; exact List.mem_append_right _ (List.mem_cons_self p l₂)
    have hpitem : items.get? p.1 = some p.2 := hinv.inflight_items p hpmem
    have hplt : p.1 < items.length := by
      rcases List.get?_eq_some.mp hpitem with ⟨h, _⟩
      exact h
    have hnd := hinv.idx_nodup
    rw [idxMultiset, Multiset.nodup_add] at hnd
    have hpF : p.1 ∈ ((s.inFlight.map Prod.fst : List Nat) : Multiset Nat) := by
      simp only [Multiset.mem_coe, List.mem_map]
      exact ⟨p, hpmem, rfl⟩
    have hpnotE : p.1 ∉ s.events.map CallbackEvent.evIndex := by
      have := Multiset.disjoint_left.mp hnd.2.2 (Multiset.mem_add.mpr (Or.inr hpF))
      simpa using this
    have hmapE : (settleAt op items.length p (l₁ ++ l₂) s).events.map
        CallbackEvent.evIndex = s.events.map CallbackEvent.evIndex ++ [p.1] := by
      rw [settleAt_events]
      simp [evIndex_outcomeEvent]
    constructor
    · intro q hq
      rw [settleAt_pending] at hq
      exact hinv.pending_items q hq
    · intro q hq
      rw [settleAt_inFlight] at hq
      refine hinv.inflight_items q ?_
      rw [hf]
      rcases List.mem_append.mp hq with hq | hq
      · exact List.mem_append_left _ hq
      · exact List.mem_append_right _ (List.mem_cons_of_mem _ hq)
    · rw [idxMultiset_settleAt op items.length s p l₁ l₂ hf]
      exact hinv.idx_nodup
    · intro j hj
      rcases hinv.cover j hj with h | h | h
      · left; rwa [settleAt_pending]
      · rw [hf] at h
        simp only [List.map_append, List.map_cons, List.mem_append,
          List.mem_cons] at h
        rcases h with h | h | h
        · right; left
          rw [settleAt_inFlight]
          simp only [List.map_append, List.mem_append]
          exact Or.inl h
        · right; right
          rw [hmapE]
          exact List.mem_append_right _ (by simp [h])
        · right; left
          rw [settleAt_inFlight]
          simp only [List.map_append, List.mem_append]
          exact Or.inr h
      · right; right
        rw [hmapE]
        exact List.mem_append_left _ h
    · intro ev hev
      rw [settleAt_events] at hev
      rcases List.mem_append.mp hev with hev | hev
      · exact hinv.events_spec ev hev
      · rw [List.mem_singleton] at hev
        subst hev
        refine ⟨p.2, ?_, ?_⟩
        · rw [evIndex_outcomeEvent]
          exact hpitem
        · rw [evIndex_outcomeEvent, evCompleted_outcomeEvent]
    · rw [settleAt_events, settleAt_completedCount]
      simp only [List.map_append, List.map_cons, List.map_nil,
        evCompleted_outcomeEvent, hinv.events_completed, List.range'_concat]
      simp [Nat.add_comm]
    · rw [settleAt_results]
      cases hop : op p.1 p.2 with
      | ok v => simp [hop, hinv.results_len]
      | error e => simp [hop, hinv.results_len]
    · intro j a hja
      rw [hmapE]
      by_cases hj : j = p.1
      · subst hj
        have ha : a = p.2 := by
          rw [hpitem] at hja
          exact (Option.some.injEq _ _).mp hja.symm
        subst ha
        rw [settleAt_results]
        cases hop : op p.1 p.2 with
        | ok v =>
          simp only [hop]
          rw [List.get?_set_eq_of_lt _ (by rw [hinv.results_len]; exact hplt)]
          simp [outcomeVal, hop]
        | error e =>
          simp only [hop]
          have hold := hinv.results_spec p.1 p.2 hja
          rw [if_neg hpnotE] at hold
          rw [hold]
          simp [outcomeVal, hop]
      · have hmem : (j ∈ s.events.map CallbackEvent.evIndex ++ [p.1]) ↔
            j ∈ s.events.map CallbackEvent.evIndex := by
          simp [List.mem_append, hj]
        rw [settleAt_results]
        have hold := hinv.results_spec j a hja
        cases hop : op p.1 p.2 with
        | ok v =>
          simp only [hop]
          rw [List.get?_set_ne _ _ (fun h => hj h.symm)]
          rw [hold]
          simp only [hmem]
        | error e =>
          simp only [hop]
          rw [hold]
          simp only [hmem]
    · rw [settleAt_errors, settleAt_events, List.filterMap_append,
        hinv.errors_spec]
      congr 1
      cases h : outcomeErr op items.length p (s.completedCount + 1) <;>
        simp [List.filterMap_cons, eventErr_outcomeEvent, h]
    · have := hinv.opCalls_spec
      rw [settleAt_opCalls, settleAt_inFlight, settleAt_events]
      rw [hf] at this
      simp only [List.length_append, List.length_cons, List.length_nil]
        at this ⊢
      omega

theorem reachable_inv {α β ε : Type} {items : List α} {op : Nat → α → Except ε β}
    {eff : Nat} {s : SchedState α β ε} (h : Reachable items op eff s) :
    Inv items op s := by
  induction h with
  | init => exact inv_init items op
  | step _ hstep ih => exact inv_step ih hstep

theorem reachable_flight_le {α β ε : Type} {items : List α}
    {op : Nat → α → Except ε β} {eff : Nat} {s : SchedState α β ε}
    (h : Reachable items op eff s) : s.inFlight.length ≤ eff := by
  induction h with
  | init => simp [initState]
  | step _ hstep ih =>
    cases hstep with
    | dispatch p rest hp hcap =>
      simp only [dispatchOne, List.length_append, List.length_singleton]
      omega
    | settle l₁ l₂ p hf =>
      rw [settleAt_inFlight]
      rw [hf] at ih
      simp only [List.length_append, List.length_cons] at ih ⊢
      omega

theorem get?_withIdx {α : Type} (l : List α) :
    ∀ (k j : Nat), (withIdx k l).get? j = (l.get? j).map (fun a => (k + j, a)) := by
  induction l with
  | nil => intro k j; simp [withIdx]
  | cons a as ih =>
    intro k j
    cases j with
    | zero => simp [withIdx]
    | succ j =>
      have h := ih (k + 1) j
      simp only [withIdx, List.get?_cons_succ]
      rw [h]
      have harith : k + 1 + j = k + (j + 1) := by omega
      rw [harith]

theorem countP_add_countP_not {γ : Type} (p : γ → Bool) (l : List γ) :
    l.countP p + l.countP (fun a => !(p a)) = l.length := by
  induction l with
  | nil => simp
  | cons a l ih => cases h : p a <;> simp [List.countP_cons, h] <;> omega

theorem complete_idx_mem {α β ε : Type} {items : List α}
    {op : Nat → α → Except ε β} {eff : Nat} {s : SchedState α β ε}
    (hc : CompleteRun items op eff s) :
    ∀ j, j ∈ s.events.map CallbackEvent.evIndex ↔ j < items.length := by
  have hinv := reachable_inv hc.1
  intro j
  constructor
  · intro hj
    rcases List.mem_map.mp hj with ⟨ev, hev, rfl⟩
    rcases hinv.events_spec ev hev with ⟨a, ha, _⟩
    rcases List.get?_eq_some.mp ha with ⟨h, _⟩
    exact h
  · intro hj
    rcases hinv.cover j hj with h | h | h
    · rw [hc.2.1] at h; simp at h
    · rw [hc.2.2] at h; simp at h
    · exact h

theorem complete_idx_nodup {α β ε : Type} {items : List α}
    {op : Nat → α → Except ε β} {eff : Nat} {s : SchedState α β ε}
    (hc : CompleteRun items op eff s) :
    (s.events.map CallbackEvent.evIndex).Nodup := by
  have hinv := reachable_inv hc.1
  have hnd := hinv.idx_nodup
  rw [idxMultiset, Multiset.nodup_add] at hnd
  exact Multiset.coe_nodup.mp hnd.2.1

theorem complete_idx_perm {α β ε : Type} {items : List α}
    {op : Nat → α → Except ε β} {eff : Nat} {s : SchedState α β ε}
    (hc : CompleteRun items op eff s) :
    (s.events.map CallbackEvent.evIndex).Perm (List.range items.length) :=
  (List.perm_ext_iff_of_nodup (complete_idx_nodup hc) (List.nodup_range _)).mpr
    (fun j => by rw [List.mem_range]; exact complete_idx_mem hc j)

theorem complete_events_length {α β ε : Type} {items : List α}
    {op : Nat → α → Except ε β} {eff : Nat} {s : SchedState α β ε}
    (hc : CompleteRun items op eff s) : s.events.length = items.length := by
  have h := (complete_idx_perm hc).length_eq
  simpa using h

theorem inv_completedCount {α β ε : Type} {items : List α}
    {op : Nat → α → Except ε β} {s : SchedState α β ε}
    (hinv : Inv items op s) : s.completedCount = s.events.length := by
  have h := congrArg List.length hinv.events_completed
  simpa using h.symm

theorem complete_results_eq {α β ε : Type} {items : List α}
    {op : Nat → α → Except ε β} {eff : Nat} {s : SchedState α β ε}
    (hc : CompleteRun items op eff s) :
    s.results = (withIdx 0 items).map (fun p => outcomeVal (op p.1 p.2)) := by
  have hinv := reachable_inv hc.1
  apply List.ext_get?
  intro j
  by_cases hj : j < items.length
  · have ha : items.get? j = some (items.get ⟨j, hj⟩) := List.get?_eq_get hj
    have hspec := hinv.results_spec j (items.get ⟨j, hj⟩) ha
    rw [if_pos ((complete_idx_mem hc j).mpr hj)] at hspec
    rw [hspec, List.get?_map, get?_withIdx, ha]
    simp
  · have h1 : s.results.get? j = none :=
      List.get?_eq_none.mpr (by rw [hinv.results_len]; omega)
    have h2 : ((withIdx 0 items).map
        (fun p => outcomeVal (op p.1 p.2))).get? j = none :=
      List.get?_eq_none.mpr (by simp [length_withIdx]; omega)
    rw [h1, h2]

/-- The success values of the operation over the indexed input, in input
order with failures dropped: what the spec says `results` must equal. -/
def successValues {α β ε : Type} (items : List α) (op : Nat → α → Except ε β) :
    List β :=
  (withIdx 0 items).filterMap (fun p => outcomeVal (op p.1 p.2))

theorem complete_assemble_results {α β ε : Type} {items : List α}
    {op : Nat → α → Except ε β} {eff : Nat} {s : SchedState α β ε}
    (hc : CompleteRun items op eff s) :
    (assemble items.length s).results = successValues items op := by
  simp only [assemble, successValues, complete_results_eq hc, List.filterMap_map]
  congr 1

/-- Whether the operation succeeds on the item at index `j`. -/
def okAt {α β ε : Type} (items : List α) (op : Nat → α → Except ε β)
    (j : Nat) : Bool :=
  match items.get? j with
  | some a => (outcomeVal (op j a)).isSome
  | none => false

theorem eventErr_isSome_of_mem {α β ε : Type} {items : List α}
    {op : Nat → α → Except ε β} {s : SchedState α β ε} (hinv : Inv items op s)
    {ev : CallbackEvent α β ε} (hev : ev ∈ s.events) :
    (eventErr ev).isSome = !(okAt items op ev.evIndex) := by
  rcases hinv.events_spec ev hev with ⟨a, ha, heq⟩
  have ha' : items[ev.evIndex]? = some a := by
    rw [← List.get?_eq_getElem?]; exact ha
  rw [heq, eventErr_outcomeEvent]
  cases hop : op ev.evIndex a with
  | ok v =>
    simp [outcomeErr, hop, okAt, ha', outcomeVal, evIndex_outcomeEvent]
  | error e =>
    simp [outcomeErr, hop, okAt, ha', outcomeVal, evIndex_outcomeEvent]

theorem complete_successful {α β ε : Type} {items : List α}
    {op : Nat → α → Except ε β} {eff : Nat} {s : SchedState α β ε}
    (hc : CompleteRun items op eff s) :
    (s.results.filterMap id).length =
      (List.range items.length).countP (okAt items op) := by
  rw [complete_results_eq hc, List.filterMap_map, List.length_filterMap_eq_countP]
  have hcongr : (withIdx 0 items).countP
      (fun p => ((id ∘ fun q => outcomeVal (op q.1 q.2)) p).isSome) =
      (withIdx 0 items).countP ((okAt items op) ∘ Prod.fst) := by
    apply List.countP_congr
    intro p hp
    rcases mem_withIdx.mp hp with ⟨j, hj1, hj2⟩
    have hj1' : p.1 = j := by omega
    simp only [Function.comp, id, okAt, hj1', hj2]
  rw [hcongr, ← List.countP_map, map_fst_withIdx, ← List.range_eq_range']

theorem complete_failed {α β ε : Type} {items : List α}
    {op : Nat → α → Except ε β} {eff : Nat} {s : SchedState α β ε}
    (hc : CompleteRun items op eff s) :
    s.errors.length =
      (List.range items.length).countP (fun j => !(okAt items op j)) := by
  have hinv := reachable_inv hc.1
  rw [hinv.errors_spec, List.length_filterMap_eq_countP]
  have hcongr : s.events.countP (fun ev => (eventErr ev).isSome) =
      s.events.countP ((fun j => !(okAt items op j)) ∘ CallbackEvent.evIndex) := by
    apply List.countP_congr
    intro ev hev
    simp only [Function.comp]
    rw [eventErr_isSome_of_mem hinv hev]
  rw [hcongr, ← List.countP_map]
  exact (complete_idx_perm hc).countP_eq _

theorem seqSched_complete {α β ε : Type} (items : List α)
    (op : Nat → α → Except ε β) (eff : Nat) (heff : 1 ≤ eff) :
    CompleteRun items op eff (seqSched items op) := by
  have := seqGo_complete items op eff heff (withIdx 0 items) (initState β ε items)
    Reachable.init rfl rfl
  exact ⟨this.1, this.2.1, this.2.2⟩

/-- Modelled from the spec: the effective-concurrency computation of the
batch scheduler (spec sections 3 and 4.2, step 2): the requested
concurrency — an integer that may be zero or negative, defaulting to the
host's parallel-unit count `cpus` when unspecified — clamped into
`[1, cpus]`.  The parallelism provider is the explicit `cpus` argument. -/
def effectiveConcurrency (cpus : Nat) (concurrency : Option Int) : Nat :=
  (max 1 (min (cpus : Int) (concurrency.getD (cpus : Int)))).toNat

/-- Modelled from the spec: the options record of the concurrency-sizing
helper (spec section 4.3). -/
structure ConcurrencyOptions where
  minConcurrency : Option Nat
  maxConcurrency : Option Nat
  memoryPerOperation : Option Nat
  deriving DecidableEq

/-- Modelled from the spec: `getOptimalConcurrency` /
`recommendConcurrency` (spec section 4.3): the base recommendation is
`min cpus itemCount` (never more workers than work); a supplied
per-operation memory cost `m` caps it further by how many operations fit
into the available memory, floored at 1; finally the result is clamped
into `[minConcurrency ?? 1, maxConcurrency ?? cpus]`. -/
def getOptimalConcurrency (cpus freeMemory : Nat) (itemCount : Nat)
    (opts : ConcurrencyOptions) : Nat :=
  let base := min cpus itemCount
  let capped :=
    match opts.memoryPerOperation with
    | none => base
    | some m => min base (max 1 (freeMemory / m))
  max (opts.minConcurrency.getD 1) (min (opts.maxConcurrency.getD cpus) capped)

/-- Shallow embedding of `batchConvert` from `src/index.js`: the source
loops `for (const file of files)`, awaits `convertImageToAvif(file,
config)` before moving to the next file, and pushes the result only when
it is non-null.  The awaited conversion is modelled as a state-threaded
function `conv`; the state returned by one call is the state the next
call starts from, which is exactly the sequential `await` ordering of
the loop. -/
def batchConvert {α β σ : Type} (conv : α → σ → Option β × σ) :
    List α → σ → List β × σ
  | [], st => ([], st)
  | f :: rest, st =>
    match conv f st with
    | (some v, st1) =>
      match batchConvert conv rest st1 with
      | (rs, st2) => (v :: rs, st2)
    | (none, st1) => batchConvert conv rest st1

/-- The state each call observes when the calls run strictly one after
another in input order: the `i`-th listed file is paired with the state
produced by running `step` over the previous files. -/
def callStates {α σ : Type} (step : α → σ → σ) : List α → σ → List (α × σ)
  | [], _ => []
  | f :: rest, st => (f, st) :: callStates step rest (step f st)

theorem map_fst_callStates {α σ : Type} (step : α → σ → σ) :
    ∀ (files : List α) (st : σ),
      (callStates step files st).map Prod.fst = files := by
  intro files
  induction files with
  | nil => intro st; rfl
  | cons f rest ih => intro st; simp [callStates, ih]

theorem batchConvert_eq {α β σ : Type} (conv : α → σ → Option β × σ) :
    ∀ (files : List α) (st : σ),
      batchConvert conv files st =
        ((callStates (fun f s => (conv f s).2) files st).filterMap
            (fun q => (conv q.1 q.2).1),
          files.foldl (fun s f => (conv f s).2) st) := by
  intro files
  induction files with
  | nil => intro st; simp [batchConvert, callStates]
  | cons f rest ih =>
    intro st
    rcases h : conv f st with ⟨r, st1⟩
    cases r with
    | some v => simp [batchConvert, callStates, h, ih, List.filterMap_cons]
    | none => simp [batchConvert, callStates, h, ih, List.filterMap_cons]

theorem isProgress_of_mem {α β ε : Type} {items : List α}
    {op : Nat → α → Except ε β} {s : SchedState α β ε} (hinv : Inv items op s)
    {ev : CallbackEvent α β ε} (hev : ev ∈ s.events) :
    ev.isProgress = okAt items op ev.evIndex := by
  rcases hinv.events_spec ev hev with ⟨a, ha, heq⟩
  have ha' : items[ev.evIndex]? = some a := by
    rw [← List.get?_eq_getElem?]; exact ha
  rw [heq, evIndex_outcomeEvent]
  cases hop : op ev.evIndex a with
  | ok v =>
    simp only [outcomeEvent, hop]
    simp [CallbackEvent.isProgress, okAt, ha', outcomeVal, hop]
  | error e =>
    simp only [outcomeEvent, hop]
    simp [CallbackEvent.isProgress, okAt, ha', outcomeVal, hop]

theorem complete_count_idx {α β ε : Type} {items : List α}
    {op : Nat → α → Except ε β} {eff : Nat} {s : SchedState α β ε}
    (hc : CompleteRun items op eff s) {j : Nat} (hj : j < items.length) :
    (s.events.map CallbackEvent.evIndex).count j = 1 :=
  List.count_eq_one_of_mem (complete_idx_nodup hc) ((complete_idx_mem hc j).mpr hj)

theorem complete_opCalls {α β ε : Type} {items : List α}
    {op : Nat → α → Except ε β} {eff : Nat} {s : SchedState α β ε}
    (hc : CompleteRun items op eff s) : s.opCalls = items.length := by
  have hinv := reachable_inv hc.1
  have h := hinv.opCalls_spec
  rw [hc.2.2] at h
  simpa [complete_events_length hc] using h

theorem complete_error_record {α β ε : Type} {items : List α}
    {op : Nat → α → Except ε β} {eff : Nat} {s : SchedState α β ε}
    (hc : CompleteRun items op eff s) {j : Nat} {a : α} {e : ε}
    (ha : items.get? j = some a) (he : op j a = Except.error e) :
    ∃ c, (⟨a, j, e, c, items.length⟩ : ErrRecord α ε) ∈ s.errors := by
  have hinv := reachable_inv hc.1
  have hj : j < items.length := by
    rcases List.get?_eq_some.mp ha with ⟨h, _⟩
    exact h
  have hmem : j ∈ s.events.map CallbackEvent.evIndex :=
    (complete_idx_mem hc j).mpr hj
  rcases List.mem_map.mp hmem with ⟨ev, hev, hevidx⟩
  rcases hinv.events_spec ev hev with ⟨a2, ha2, heq⟩
  rw [hevidx] at ha2
  have ha2a : a2 = a := by
    rw [ha] at ha2
    exact ((Option.some.injEq _ _).mp ha2).symm
  subst ha2a
  rw [hevidx] at heq
  refine ⟨ev.evCompleted, ?_⟩
  rw [hinv.errors_spec]
  refine List.mem_filterMap.mpr ⟨ev, hev, ?_⟩
  rw [heq]
  simp [outcomeEvent, he, eventErr, CallbackEvent.evCompleted]

theorem index_eventErr {α β ε : Type} (ev : CallbackEvent α β ε)
    (r : ErrRecord α ε) (h : eventErr ev = some r) : r.index = ev.evIndex := by
  cases ev with
  | progress file i c t v pct => simp [eventErr] at h
  | failure file i e c t =>
    simp [eventErr] at h
    rw [← h]
    simp [CallbackEvent.evIndex]

theorem map_filterMap_sublist {γ δ κ : Type} (f : γ → Option δ) (g : δ → κ)
    (h : γ → κ) (hfg : ∀ x y, f x = some y → g y = h x) :
    ∀ l : List γ, ((l.filterMap f).map g).Sublist (l.map h) := by
  intro l
  induction l with
  | nil => simp
  | cons x xs ih =>
    cases hx : f x with
    | none =>
      rw [List.filterMap_cons, hx, List.map_cons]
      exact ih.cons _
    | some y =>
      rw [List.filterMap_cons, hx, List.map_cons, List.map_cons, hfg x y hx]
      exact ih.cons₂ _

theorem complete_errors_idx_nodup {α β ε : Type} {items : List α}
    {op : Nat → α → Except ε β} {eff : Nat} {s : SchedState α β ε}
    (hc : CompleteRun items op eff s) : (s.errors.map ErrRecord.index).Nodup := by
  have hinv := reachable_inv hc.1
  rw [hinv.errors_spec]
  have hsub := map_filterMap_sublist eventErr ErrRecord.index
    CallbackEvent.evIndex (fun x y hxy => index_eventErr x y hxy) s.events
  exact (complete_idx_nodup hc).sublist hsub

theorem foldl_append_singleton {α : Type} :
    ∀ (files : List α) (log : List α),
      files.foldl (fun l f => l ++ [f]) log = log ++ files := by
  intro files
  induction files with
  | nil => intro log; simp
  | cons f rest ih => intro log; simp [ih]

/-- Total count the event reports. -/
def CallbackEvent.evTotal {α β ε : Type} : CallbackEvent α β ε → Nat
  | .progress _ _ _ t _ _ => t
  | .failure _ _ _ _ t => t

/-- Percentage an `onProgress` event reports (0 for an `onError` one). -/
def CallbackEvent.evPct {α β ε : Type} : CallbackEvent α β ε → ℚ
  | .progress _ _ _ _ _ q => q
  | .failure _ _ _ _ _ => 0

theorem evTotal_outcomeEvent {α β ε : Type} (op : Nat → α → Except ε β)
    (N : Nat) (p : Nat × α) (c : Nat) :
    (outcomeEvent op N p c).evTotal = N := by
  cases h : op p.1 p.2 <;> simp [outcomeEvent, h, CallbackEvent.evTotal]

theorem evPct_outcomeEvent {α β ε : Type} {op : Nat → α → Except ε β}
    {N : Nat} {p : Nat × α} {c : Nat}
    (h : (outcomeEvent op N p c).isProgress = true) :
    (outcomeEvent op N p c).evPct = (c : ℚ) / (N : ℚ) * 100 := by
  cases hop : op p.1 p.2 with
  | ok v => simp [outcomeEvent, hop, CallbackEvent.evPct]
  | error e => simp [outcomeEvent, hop, CallbackEvent.isProgress] at h

/-- C1: in every complete batch run, an item whose operation fails is
captured as exactly one error record carrying its item, index and error —
the failure never propagates out of the scheduler, which runs to
completion — and every item, the failing ones included, is still
dispatched (`opCalls = N`) and settled exactly once. -/
theorem c1_failure_isolation {α β ε : Type} (items : List α)
    (op : Nat → α → Except ε β) (eff : Nat) (s : SchedState α β ε)
    (hc : CompleteRun items op eff s) :
    (∀ j a e, items.get? j = some a → op j a = Except.error e →
        ∃ c, (⟨a, j, e, c, items.length⟩ : ErrRecord α ε) ∈
          (assemble items.length s).errors) ∧
    ((assemble items.length s).errors.map ErrRecord.index).Nodup ∧
    (∀ j a, items.get? j = some a →
        (s.events.map CallbackEvent.evIndex).count j = 1) ∧
    s.opCalls = items.length := by
  refine ⟨?_, complete_errors_idx_nodup hc, ?_, complete_opCalls hc⟩
  · intro j a e ha he
    exact complete_error_record hc ha he
  · intro j a ha
    have hj : j < items.length := by
      rcases List.get?_eq_some.mp ha with ⟨h, _⟩
      exact h
    exact complete_count_idx hc hj

/-- C2: in every complete batch run — whatever real-time completion order
the scheduler's nondeterminism picked — the assembled `results` sequence
equals the success values of the operation in original input-index order,
with failed items excluded rather than padded. -/
theorem c2_results_input_order {α β ε : Type} (items : List α)
    (op : Nat → α → Except ε β) (eff : Nat) (s : SchedState α β ε)
    (hc : CompleteRun items op eff s) :
    (assemble items.length s).results = successValues items op :=
  complete_assemble_results hc

/-- C3: in every complete batch run over `N` input items the assembled
counts satisfy `successful + failed = N = total`, with `successful` the
length of `results` and `failed` the length of `errors`. -/
theorem c3_count_identity {α β ε : Type} (items : List α)
    (op : Nat → α → Except ε β) (eff : Nat) (s : SchedState α β ε)
    (hc : CompleteRun items op eff s) :
    (assemble items.length s).successful + (assemble items.length s).failed =
        items.length ∧
    (assemble items.length s).total = items.length ∧
    (assemble items.length s).successful =
        (assemble items.length s).results.length ∧
    (assemble items.length s).failed =
        (assemble items.length s).errors.length := by
  refine ⟨?_, rfl, rfl, rfl⟩
  show (s.results.filterMap id).length + s.errors.length = items.length
  rw [complete_successful hc, complete_failed hc]
  have h := countP_add_countP_not (okAt items op) (List.range items.length)
  simpa using h

/-- C4: with the clamped effective concurrency, no reachable scheduler
state ever has more than `effectiveConcurrency` invocations of `op`
outstanding, and whenever a slot is free and work is pending a dispatch
step refilling the pool is enabled (continuously refilling pool, not
fixed-size waves). -/
theorem c4_bounded_concurrency {α β ε : Type} (items : List α)
    (op : Nat → α → Except ε β) (cpus : Nat) (c : Option Int)
    (s : SchedState α β ε)
    (hr : Reachable items op (effectiveConcurrency cpus c) s) :
    s.inFlight.length ≤ effectiveConcurrency cpus c ∧
    (s.pending ≠ [] → s.inFlight.length < effectiveConcurrency cpus c →
      ∃ t, Step op items.length (effectiveConcurrency cpus c) s t ∧
        t.pending = s.pending.tail ∧
        t.inFlight.length = s.inFlight.length + 1) := by
  refine ⟨reachable_flight_le hr, ?_⟩
  intro hne hlt
  rcases List.exists_cons_of_ne_nil hne with ⟨p, rest, hp⟩
  refine ⟨dispatchOne p rest s, Step.dispatch s p rest hp hlt, ?_, ?_⟩
  · simp [dispatchOne, hp]
  · simp [dispatchOne]

/-- C5: on an empty input sequence the scheduler can only ever be in its
initial state: the batch result has all counts zero with empty result and
error sequences, and the operation is never invoked. -/
theorem c5_empty_input {α β ε : Type} (op : Nat → α → Except ε β) (eff : Nat)
    (s : SchedState α β ε) (hr : Reachable ([] : List α) op eff s) :
    s = initState β ε [] ∧
    assemble 0 s = ⟨[], [], 0, 0, 0⟩ ∧
    s.opCalls = 0 := by
  have hs : s = initState β ε [] := by
    induction hr with
    | init => rfl
    | step hr0 hstep ih =>
      cases hstep with
      | dispatch p rest hp hcap =>
        rw [ih] at hp
        simp [initState, withIdx] at hp
      | settle l₁ l₂ p hf =>
        rw [ih] at hf
        simp [initState] at hf
  subst hs
  exact ⟨rfl, rfl, rfl⟩

/-- C6: in every complete batch run of `N` items the `completed` values
carried by the callback trace are exactly `1, 2, ..., N` in call order
(shared counter, monotonic, never double-incremented or skipped), and for
every item exactly one callback fires — an `onProgress` call when its
operation succeeds and an `onError` call when it fails. -/
theorem c6_callbacks_once_and_counter {α β ε : Type} (items : List α)
    (op : Nat → α → Except ε β) (eff : Nat) (s : SchedState α β ε)
    (hc : CompleteRun items op eff s) :
    s.events.map CallbackEvent.evCompleted = List.range' 1 items.length ∧
    (∀ j a, items.get? j = some a →
      (s.events.countP (fun ev => ev.evIndex == j && ev.isProgress) =
        if okAt items op j then 1 else 0) ∧
      (s.events.countP (fun ev => ev.evIndex == j && !(ev.isProgress)) =
        if okAt items op j then 0 else 1)) := by
  have hinv := reachable_inv hc.1
  refine ⟨?_, ?_⟩
  · rw [hinv.events_completed, inv_completedCount hinv,
      complete_events_length hc]
  · intro j a ha
    have hj : j < items.length := by
      rcases List.get?_eq_some.mp ha with ⟨h, _⟩
      exact h
    have hcnt : s.events.countP (fun ev => ev.evIndex == j) = 1 := by
      have h1 : s.events.countP (fun ev => ev.evIndex == j) =
          (s.events.map CallbackEvent.evIndex).count j := by
        rw [List.count_eq_countP, List.countP_map]
        rfl
      rw [h1]
      exact complete_count_idx hc hj
    have hkey : ∀ (g : Bool → Bool),
        s.events.countP (fun ev => ev.evIndex == j && g ev.isProgress) =
          if g (okAt items op j) then 1 else 0 := by
      intro g
      have hcongr :
          s.events.countP (fun ev => ev.evIndex == j && g ev.isProgress) =
            s.events.countP
              (fun ev => (ev.evIndex == j) && g (okAt items op j)) := by
        apply List.countP_congr
        intro ev hev
        by_cases hbeq : ev.evIndex = j
        · rw [isProgress_of_mem hinv hev, hbeq]
        · have hb : (ev.evIndex == j) = false := by simp [hbeq]
          simp [hb]
      rw [hcongr]
      cases hg : g (okAt items op j) with
      | true => simpa [Bool.and_true] using hcnt
      | false => simp
    constructor
    · simpa using hkey (fun b => b)
    · have h := hkey (fun b => !b)
      cases hok : okAt items op j with
      | true => simpa [hok] using h
      | false => simpa [hok] using h

/-- C7: every `onProgress` invocation in every complete batch run reports
`total = N` and, when it is the `k`-th callback of the run (so its
`completed` value is `k + 1`), a percentage equal to the exact unrounded
value `(k+1)/N*100`. -/
theorem c7_percentage_unrounded {α β ε : Type} (items : List α)
    (op : Nat → α → Except ε β) (eff : Nat) (s : SchedState α β ε)
    (hc : CompleteRun items op eff s) :
    ∀ (k : Nat) (file : α) (i c t : Nat) (v : β) (pct : ℚ),
      s.events.get? k = some (CallbackEvent.progress file i c t v pct) →
      c = k + 1 ∧ t = items.length ∧
      pct = ((k + 1 : Nat) : ℚ) / ((items.length : Nat) : ℚ) * 100 := by
  have hinv := reachable_inv hc.1
  intro k file i c t v pct hk
  have hmem : CallbackEvent.progress file i c t v pct ∈ s.events :=
    List.get?_mem hk
  have hklen : k < s.events.length := by
    rcases List.get?_eq_some.mp hk with ⟨h, _⟩
    exact h
  have hcomp : (s.events.map CallbackEvent.evCompleted).get? k = some c := by
    rw [List.get?_map, hk]
    rfl
  rw [hinv.events_completed] at hcomp
  have hcc : s.completedCount = s.events.length := inv_completedCount hinv
  have hrange : (List.range' 1 s.completedCount).get? k = some (1 + k) := by
    rw [List.get?_eq_getElem?]
    rw [List.getElem?_range' _ _ (by rw [hcc]; simpa using hklen)]
    simp
  rw [hrange] at hcomp
  have hc1 : c = k + 1 := by
    have h := Option.some.inj hcomp
    omega
  rcases hinv.events_spec _ hmem with ⟨a, ha, heq⟩
  have ht : t = items.length := by
    have h := congrArg CallbackEvent.evTotal heq
    rw [evTotal_outcomeEvent] at h
    exact h
  have hprog : (outcomeEvent op items.length
      ((CallbackEvent.progress file i c t v pct : CallbackEvent α β ε).evIndex,
        a)
      (CallbackEvent.progress file i c t v pct :
        CallbackEvent α β ε).evCompleted).isProgress = true := by
    rw [← heq]
    rfl
  have hpct : pct = ((c : Nat) : ℚ) / ((items.length : Nat) : ℚ) * 100 := by
    have h := congrArg CallbackEvent.evPct heq
    rw [evPct_outcomeEvent hprog] at h
    exact h
  exact ⟨hc1, ht, by rw [hpct, hc1]⟩

theorem filterMap_fst_callStates {α β σ : Type} (g : α → Option β)
    (step : α → σ → σ) :
    ∀ (files : List α) (st : σ),
      (callStates step files st).filterMap (fun q => g q.1) =
        files.filterMap g := by
  intro files
  induction files with
  | nil => intro st; rfl
  | cons f rest ih =>
    intro st
    cases h : g f <;> simp [callStates, List.filterMap_cons, h, ih]

/-- C8: the effective concurrency used by the batch engine is clamped
into `[1, cpus]` — requested values ≤ 0 clamp to 1 and values above the
host's parallel-unit count clamp to that count — and with the clamped
value every complete run still invokes the operation exactly once per
item and settles every item exactly once. -/
theorem c8_concurrency_clamped (cpus : Nat) (hcpus : 1 ≤ cpus) (c : Int) :
    (1 ≤ effectiveConcurrency cpus (some c) ∧
      effectiveConcurrency cpus (some c) ≤ cpus) ∧
    (c ≤ 0 → effectiveConcurrency cpus (some c) = 1) ∧
    ((cpus : Int) < c → effectiveConcurrency cpus (some c) = cpus) ∧
    (∀ {α β ε : Type} (items : List α) (op : Nat → α → Except ε β)
        (s : SchedState α β ε),
      CompleteRun items op (effectiveConcurrency cpus (some c)) s →
      s.opCalls = items.length ∧
      ∀ j, j < items.length →
        (s.events.map CallbackEvent.evIndex).count j = 1) := by
  refine ⟨⟨?_, ?_⟩, ?_, ?_, ?_⟩
  · simp only [effectiveConcurrency, Option.getD_some]
    omega
  · simp only [effectiveConcurrency, Option.getD_some]
    omega
  · intro hc
    simp only [effectiveConcurrency, Option.getD_some]
    omega
  · intro hc
    simp only [effectiveConcurrency, Option.getD_some]
    omega
  · intro α β ε items op s hc
    exact ⟨complete_opCalls hc, fun j hj => complete_count_idx hc hj⟩

/-- C9: the concurrency-sizing helper recommends `min cpus itemCount`
when no options are given (never more workers than items), caps the
recommendation further — but never below 1 — when a per-operation memory
cost is supplied, and clamps into `[minConcurrency ?? 1,
maxConcurrency ?? cpus]`; in particular it returns 3 for 3 items on a
host with at least 3 units, 1 for 1 item, 4 for 100 items with
`maxConcurrency = 4`, and 2 for 1 item with `minConcurrency = 2`. -/
theorem c9_optimal_concurrency (cpus freeMemory : Nat) :
    (∀ itemCount, 1 ≤ itemCount → 1 ≤ cpus →
      getOptimalConcurrency cpus freeMemory itemCount ⟨none, none, none⟩ =
        min cpus itemCount) ∧
    (∀ itemCount m,
      getOptimalConcurrency cpus freeMemory itemCount ⟨none, none, some m⟩ ≤
        getOptimalConcurrency cpus freeMemory itemCount ⟨none, none, none⟩ ∧
      1 ≤ getOptimalConcurrency cpus freeMemory itemCount
            ⟨none, none, some m⟩) ∧
    (3 ≤ cpus →
      getOptimalConcurrency cpus freeMemory 3 ⟨none, none, none⟩ = 3) ∧
    (1 ≤ cpus →
      getOptimalConcurrency cpus freeMemory 1 ⟨none, none, none⟩ = 1) ∧
    (4 ≤ cpus →
      getOptimalConcurrency cpus freeMemory 100 ⟨none, some 4, none⟩ = 4) ∧
    (1 ≤ cpus →
      getOptimalConcurrency cpus freeMemory 1 ⟨some 2, none, none⟩ = 2) := by
  refine ⟨?_, ?_, ?_, ?_, ?_, ?_⟩
  · intro itemCount h1 h2
    simp only [getOptimalConcurrency, Option.getD_none]
    omega
  · intro itemCount m
    simp only [getOptimalConcurrency, Option.getD_none]
    constructor
    · generalize freeMemory / m = q
      omega
    · generalize freeMemory / m = q
      omega
  · intro h
    simp only [getOptimalConcurrency, Option.getD_none]
    omega
  · intro h
    simp only [getOptimalConcurrency, Option.getD_none]
    omega
  · intro h
    simp only [getOptimalConcurrency, Option.getD_none, Option.getD_some]
    omega
  · intro h
    simp only [getOptimalConcurrency, Option.getD_none, Option.getD_some]
    omega

/-- C10: `batchConvert` from `src/index.js` runs the conversions strictly
sequentially in input order — each call observes exactly the state left
by the sequential prefix before it, which is the awaited-loop semantics,
so at most one conversion is in flight — and returns exactly the
non-null conversion results in input order, with a call log showing each
file converted exactly once in input order. -/
theorem c10_batchConvert_sequential {α β σ : Type}
    (conv : α → σ → Option β × σ) (files : List α) (st : σ)
    (g : α → Option β) :
    batchConvert conv files st =
      ((callStates (fun f s => (conv f s).2) files st).filterMap
          (fun q => (conv q.1 q.2).1),
        files.foldl (fun s f => (conv f s).2) st) ∧
    (batchConvert (fun f (log : List α) => (g f, log ++ [f])) files []).1 =
        files.filterMap g ∧
    (batchConvert (fun f (log : List α) => (g f, log ++ [f])) files []).2 =
        files := by
  refine ⟨batchConvert_eq conv files st, ?_, ?_⟩
  · rw [batchConvert_eq]
    have h := filterMap_fst_callStates g
      (fun f (log : List α) => log ++ [f]) files []
    simpa using h
  · rw [batchConvert_eq]
    have h := foldl_append_singleton files ([] : List α)
    simpa using h

/-- Example operation for concrete runs: fails with error `7` at index 1,
succeeds with `a + 1` elsewhere. -/
def wopA : Nat → Nat → Except Nat Nat :=
  fun i a => if i = 1 then Except.error 7 else Except.ok (a + 1)

/-- Witness for C1: the concrete sequential run on three items where the
middle one fails contains its error record. -/
theorem c1_witness :
    CompleteRun [10, 20, 30] wopA 2 (seqSched [10, 20, 30] wopA) ∧
    (∃ c, (⟨20, 1, 7, c, 3⟩ : ErrRecord Nat Nat) ∈
      (assemble 3 (seqSched [10, 20, 30] wopA)).errors) :=
  ⟨seqSched_complete [10, 20, 30] wopA 2 (by decide),
   (c1_failure_isolation [10, 20, 30] wopA 2 _
      (seqSched_complete [10, 20, 30] wopA 2 (by decide))).1 1 20 7
     (by decide) rfl⟩

/-- Witness for C2: the concrete run yields exactly the two success
values in input order. -/
theorem c2_witness :
    CompleteRun [10, 20, 30] wopA 2 (seqSched [10, 20, 30] wopA) ∧
    (assemble 3 (seqSched [10, 20, 30] wopA)).results = [11, 31] :=
  ⟨seqSched_complete [10, 20, 30] wopA 2 (by decide),
   by
    have h := c2_results_input_order [10, 20, 30] wopA 2 _
      (seqSched_complete [10, 20, 30] wopA 2 (by decide))
    have hv : successValues [10, 20, 30] wopA = [11, 31] := by decide
    exact hv ▸ h⟩

/-- Witness for C3: the concrete run has `successful + failed = 3`. -/
theorem c3_witness :
    CompleteRun [10, 20, 30] wopA 2 (seqSched [10, 20, 30] wopA) ∧
    (assemble 3 (seqSched [10, 20, 30] wopA)).successful +
      (assemble 3 (seqSched [10, 20, 30] wopA)).failed = 3 :=
  ⟨seqSched_complete [10, 20, 30] wopA 2 (by decide),
   (c3_count_identity [10, 20, 30] wopA 2 _
      (seqSched_complete [10, 20, 30] wopA 2 (by decide))).1⟩

/-- Witness for C4: at the initial state of a two-item batch with
requested concurrency 2 on a 4-unit host, the in-flight bound holds. -/
theorem c4_witness :
    Reachable [10, 20] wopA (effectiveConcurrency 4 (some 2))
      (initState Nat Nat [10, 20]) ∧
    (initState Nat Nat [10, 20] : SchedState Nat Nat Nat).inFlight.length ≤
      effectiveConcurrency 4 (some 2) :=
  ⟨Reachable.init,
   (c4_bounded_concurrency [10, 20] wopA 4 (some 2) _ Reachable.init).1⟩

/-- Witness for C5: the empty batch never invokes the operation. -/
theorem c5_witness :
    Reachable ([] : List Nat) wopA 3 (initState Nat Nat []) ∧
    (initState Nat Nat ([] : List Nat)).opCalls = 0 :=
  ⟨Reachable.init, (c5_empty_input wopA 3 _ Reachable.init).2.2⟩

/-- Witness for C6: the concrete run's callbacks carry the completed
values 1, 2, 3 in call order. -/
theorem c6_witness :
    CompleteRun [10, 20, 30] wopA 2 (seqSched [10, 20, 30] wopA) ∧
    (seqSched [10, 20, 30] wopA : SchedState Nat Nat Nat).events.map
      CallbackEvent.evCompleted = [1, 2, 3] :=
  ⟨seqSched_complete [10, 20, 30] wopA 2 (by decide),
   by
    rw [(c6_callbacks_once_and_counter [10, 20, 30] wopA 2 _
      (seqSched_complete [10, 20, 30] wopA 2 (by decide))).1]
    decide⟩

/-- Witness for C7: the third callback of the concrete run is an
`onProgress` call whose percentage is exactly `3/3*100 = 100`. -/
theorem c7_witness :
    CompleteRun [10, 20, 30] wopA 2 (seqSched [10, 20, 30] wopA) ∧
    (seqSched [10, 20, 30] wopA : SchedState Nat Nat Nat).events.get? 2 =
      some (CallbackEvent.progress 30 2 3 3 31 100) ∧
    ((3 : Nat) = 2 + 1 ∧ (3 : Nat) = 3 ∧
      (100 : ℚ) = ((2 + 1 : Nat) : ℚ) / ((3 : Nat) : ℚ) * 100) :=
  by
  have hget : (seqSched [10, 20, 30] wopA :
      SchedState Nat Nat Nat).events.get? 2 =
      some (CallbackEvent.progress 30 2 3 3 31 100) := by
    simp [seqSched, seqGo, withIdx, initState, dispatchOne, settleAt, wopA,
      List.get?]
  exact ⟨seqSched_complete [10, 20, 30] wopA 2 (by decide), hget,
    c7_percentage_unrounded [10, 20, 30] wopA 2 _
      (seqSched_complete [10, 20, 30] wopA 2 (by decide))
      2 30 2 3 3 31 100 hget⟩

/-- Witness for C8: on a 4-unit host a requested concurrency of `-5`
clamps to 1. -/
theorem c8_witness :
    (1 : Nat) ≤ 4 ∧ effectiveConcurrency 4 (some (-5)) = 1 :=
  ⟨by decide, (c8_concurrency_clamped 4 (by decide) (-5)).2.1 (by decide)⟩

/-- Witness for C9: the concrete recommendations on an 8-unit host. -/
theorem c9_witness :
    getOptimalConcurrency 8 1024 3 ⟨none, none, none⟩ = 3 ∧
    getOptimalConcurrency 8 1024 100 ⟨none, some 4, none⟩ = 4 ∧
    getOptimalConcurrency 8 1024 1 ⟨some 2, none, none⟩ = 2 :=
  ⟨(c9_optimal_concurrency 8 1024).2.2.1 (by decide),
   (c9_optimal_concurrency 8 1024).2.2.2.2.1 (by decide),
   (c9_optimal_concurrency 8 1024).2.2.2.2.2 (by decide)⟩

end AvifOptimizer
